import Mathlib

/-!
Verification of the `rustyvectors` library: an in-memory vector store with
insertion (`add`), removal (`remove`), lookup (`get`) and nearest-neighbour
search (`nearest`) under Euclidean distance (`euclidean`).

The Rust code works on `f64`. We model `f64` values with exact arithmetic:
a value is NaN, +∞, −∞, or a finite number represented by a rational.
Rounding and overflow of finite arithmetic are idealised away (finite
operations are exact), but the IEEE special-value rules for NaN and the
infinities — the part of float semantics the code's comparator actually
branches on — are modelled faithfully:
`NaN op x = NaN`, `∞ − ∞ = NaN`, `(±∞)² = +∞`, `√(−∞) = NaN`, and
`partial_cmp` is `none` exactly when one operand is NaN.

The distance function ends in `sqrt`, whose exact value on a rational
radicand is irrational in general, so distance values get their own type
`D`: `D.sqrtv q` denotes the real number `√q` (the radicand `q` is kept
symbolically).  Since `√` is strictly monotone on `[0, ∞)`, comparing two
such values under `f64::partial_cmp` is comparing their radicands, which is
how `partialCmpD` is defined.
-/

namespace RustyVectors

/-- Model of an `f64` value: NaN, an infinity (`inf true` is +∞,
`inf false` is −∞), or a finite value represented exactly by a rational. -/
inductive F where
  | nan : F
  | inf : Bool → F
  | fin : ℚ → F
deriving DecidableEq

/-- IEEE subtraction on modelled `f64` values (`x - y` in
`(x - y).powi(2)` of `euclidean`): NaN is absorbing, `∞ − ∞ = NaN` for
infinities of the same sign, and finite subtraction is exact. -/
def F.sub : F → F → F
  | .nan, _ => .nan
  | _, .nan => .nan
  | .inf s, .inf t => if s = t then .nan else .inf s
  | .inf s, .fin _ => .inf s
  | .fin _, .inf s => .inf (!s)
  | .fin p, .fin q => .fin (p - q)

/-- IEEE squaring (`.powi(2)`, i.e. `x * x`): NaN stays NaN, both
infinities square to +∞, finite squaring is exact. -/
def F.square : F → F
  | .nan => .nan
  | .inf _ => .inf true
  | .fin q => .fin (q * q)

/-- IEEE addition (used by `sum::<f64>()`): NaN is absorbing,
`∞ + (−∞) = NaN`, an infinity absorbs finite addends, finite addition is
exact. -/
def F.add : F → F → F
  | .nan, _ => .nan
  | _, .nan => .nan
  | .inf s, .inf t => if s = t then .inf s else .nan
  | .inf s, .fin _ => .inf s
  | .fin _, .inf s => .inf s
  | .fin p, .fin q => .fin (p + q)

/-- `sum::<f64>()` over an iterator: left fold of IEEE addition starting
from `0.0`. -/
def F.fsum (l : List F) : F := l.foldl F.add (.fin 0)

/-- A distance value (the result of `sqrt`): NaN, +∞, or the real number
`√q` for a rational radicand `q` kept symbolically (`sqrtv q`).  Values
produced by `fsqrt` always have `0 ≤ q`. -/
inductive D where
  | nan : D
  | inf : D
  | sqrtv : ℚ → D
deriving DecidableEq

/-- IEEE `sqrt`: `√NaN = NaN`, `√(+∞) = +∞`, `√x = NaN` for `x < 0`
(including −∞), and on a non-negative finite radicand the exact square
root, kept symbolically. -/
def fsqrt : F → D
  | .nan => .nan
  | .inf s => if s then .inf else .nan
  | .fin q => if q < 0 then .nan else .sqrtv q

/-- `f64::partial_cmp` on distance values: `none` iff one side is NaN;
+∞ equals itself and exceeds every finite value; two finite values
`√p`, `√q` compare as their radicands since `√` is strictly monotone on
`[0, ∞)`. -/
def partialCmpD : D → D → Option Ordering
  | .nan, _ => none
  | _, .nan => none
  | .inf, .inf => some .eq
  | .inf, .sqrtv _ => some .gt
  | .sqrtv _, .inf => some .lt
  | .sqrtv p, .sqrtv q =>
      some (if p < q then .lt else if q < p then .gt else .eq)

/-- The comparator of `nearest`:
`dist1.partial_cmp(&dist2).unwrap_or(Ordering::Equal)` — an unorderable
comparison (NaN involved) is treated as equality. -/
def cmpD (d e : D) : Ordering := (partialCmpD d e).getD .eq

/-- The `f64` order `d <= e` on distance values (false whenever a NaN is
involved, as in IEEE comparison). -/
def D.le (d e : D) : Prop :=
  partialCmpD d e = some .lt ∨ partialCmpD d e = some .eq

/-- `d` represents the real number `0.0`: among distance values this is
exactly `√0`. -/
def D.isZero : D → Bool
  | .sqrtv q => q = 0
  | _ => false

/-- `d` represents a non-negative real number or +∞ (`√q ≥ 0` whenever the
radicand is non-negative); NaN is not non-negative. -/
def D.isNonneg : D → Bool
  | .nan => false
  | .inf => true
  | .sqrtv q => 0 ≤ q

/-- `euclidean` from `src/distance.rs`:
`a.iter().zip(b).map(|(&x, &y)| (x - y).powi(2)).sum::<f64>().sqrt()`.
Pairs the two sequences positionally (zip truncates to the shorter one),
squares the differences, sums and takes the square root. -/
def euclidean (a b : List F) : D :=
  fsqrt (F.fsum ((a.zip b).map (fun p => F.square (F.sub p.1 p.2))))

/-- Modelled from the spec's formula for the distance function:
`√( Σ_{i < min(|a|,|b|)} (a_i − b_i)² )`, the sum running over explicit
indices below the shorter length. -/
def euclidean_spec (a b : List F) : D :=
  fsqrt (F.fsum ((List.range (min a.length b.length)).map
    (fun i => F.square (F.sub (a.getD i (.fin 0)) (b.getD i (.fin 0))))))

/-- A stored vector: an ordered sequence of modelled `f64` components. -/
abbrev Vec := List F

/-- `VectorDatabase` from `src/vector_database.rs`: an ordered collection
of vectors (`vectors: Vec<Array1<f64>>`). -/
structure VectorDatabase where
  vectors : List Vec
deriving DecidableEq

/-- `Array1::from_shape_vec(shape, data)` for one-dimensional arrays:
succeeds iff the shape equals the data length. -/
def from_shape_vec (shape : Nat) (data : List F) : Option Vec :=
  if data.length = shape then some data else none

/-- `VectorDatabase::add`: builds
`Array1::from_shape_vec(vector.len(), vector.to_vec())`, unwraps it
(`none` models the panic of `.unwrap()`), and pushes it at the end. -/
def VectorDatabase.add (db : VectorDatabase) (vector : Vec) :
    Option VectorDatabase :=
  (from_shape_vec vector.length vector).map
    (fun nv => ⟨db.vectors ++ [nv]⟩)

/-- `VectorDatabase::remove`: if `index < len`, removes and returns the
vector at `index` (`Vec::remove` shifts later elements down by one);
otherwise returns `None` and leaves the store unchanged.  Modelled in
state-passing style: the second component is the store after the call. -/
def VectorDatabase.remove (db : VectorDatabase) (index : Nat) :
    Option Vec × VectorDatabase :=
  if h : index < db.vectors.length then
    (some (db.vectors.get ⟨index, h⟩), ⟨db.vectors.eraseIdx index⟩)
  else
    (none, db)

/-- `VectorDatabase::get`: the vector at `index` when `index < len`,
otherwise `None`. -/
def VectorDatabase.get (db : VectorDatabase) (index : Nat) : Option Vec :=
  if h : index < db.vectors.length then
    some (db.vectors.get ⟨index, h⟩)
  else
    none

/-- The enumerated distance list built by `nearest`:
`vectors.iter().enumerate().map(|(i, v)| (i, euclidean(&v.view(), &query)))`. -/
def distList (db : VectorDatabase) (query : List F) : List (Nat × D) :=
  db.vectors.enum.map (fun p => (p.1, euclidean p.2 query))

/-- The fold performed by `Iterator::min_by` on the comparator `cmpD`:
starting from the first element, a later element replaces the current best
only when the comparator says it is strictly smaller (so the first of any
run of ties is kept). -/
def nearestAux (acc : Nat × D) : List (Nat × D) → Nat × D
  | [] => acc
  | y :: ys => nearestAux (if cmpD y.2 acc.2 = .lt then y else acc) ys

/-- `VectorDatabase::nearest`: `None` on an empty store, otherwise the
index component of the minimum of the enumerated distance list under
`min_by` with the NaN-tolerant comparator. -/
def VectorDatabase.nearest (db : VectorDatabase) (query : List F) :
    Option Nat :=
  if db.vectors.isEmpty then none
  else
    match distList db query with
    | [] => none
    | x :: xs => some (nearestAux x xs).1

/-- The distance from the stored vector at position `i` to the query. -/
def distAt (db : VectorDatabase) (query : List F) (i : Nat) : D :=
  euclidean (db.vectors.getD i []) query

/-- `x` is a finite (non-NaN, non-infinite) modelled `f64` value. -/
def F.isFinite : F → Bool
  | .fin _ => true
  | _ => false

/- ### Helper lemmas -/

theorem zip_map_eq_range_map {α β γ : Type} (f : α → β → γ) (da : α)
    (db : β) : ∀ (a : List α) (b : List β),
    (a.zip b).map (fun p => f p.1 p.2)
      = (List.range (min a.length b.length)).map
          (fun i => f (a.getD i da) (b.getD i db)) := by
  intro a
  induction a with
  | nil => intro b; simp
  | cons x xs ih =>
    intro b
    cases b with
    | nil => simp
    | cons y ys =>
      simp only [List.zip_cons_cons, List.map_cons, List.length_cons,
        Nat.succ_min_succ, List.range_succ_eq_map, List.map_map]
      refine congrArg (f x y :: ·) ?_
      rw [ih ys]
      rfl

theorem getD_take_of_lt {α : Type} (d : α) :
    ∀ (l : List α) (m i : Nat), i < m → (l.take m).getD i d = l.getD i d := by
  intro l
  induction l with
  | nil => intro m i _; simp
  | cons x xs ih =>
    intro m i him
    cases m with
    | zero => omega
    | succ m =>
      cases i with
      | zero => simp
      | succ i => simpa using ih m i (by omega)

theorem fsum_all_zero {l : List F} (h : ∀ y ∈ l, y = F.fin 0) :
    F.fsum l = F.fin 0 := by
  have aux : ∀ (l' : List F), (∀ y ∈ l', y = F.fin 0) →
      l'.foldl F.add (F.fin 0) = F.fin 0 := by
    intro l'
    induction l' with
    | nil => intro _; rfl
    | cons y ys ih =>
      intro hy
      have hy0 : y = F.fin 0 := hy y (by simp)
      have : F.add (F.fin 0) y = F.fin 0 := by
        subst hy0
        show F.fin (0 + 0) = F.fin 0
        norm_num
      simpa [List.foldl, this] using ih (fun z hz => hy z (by simp [hz]))
  exact aux l h

/-- Invariant satisfied by partial sums of squares: NaN, +∞, or a
non-negative finite value. -/
def SumOk (x : F) : Prop :=
  x = F.nan ∨ x = F.inf true ∨ ∃ q, 0 ≤ q ∧ x = F.fin q

theorem sumOk_square (x : F) : SumOk (F.square x) := by
  cases x with
  | nan => exact Or.inl rfl
  | inf s => exact Or.inr (Or.inl rfl)
  | fin q => exact Or.inr (Or.inr ⟨q * q, mul_self_nonneg q, rfl⟩)

theorem sumOk_add {x y : F} (hx : SumOk x) (hy : SumOk y) :
    SumOk (F.add x y) := by
  rcases hx with hx | hx | ⟨p, hp, hx⟩ <;> subst hx <;>
    rcases hy with hy | hy | ⟨q, hq, hy⟩ <;> subst hy
  · exact Or.inl rfl
  · exact Or.inl rfl
  · exact Or.inl rfl
  · exact Or.inl rfl
  · exact Or.inr (Or.inl (by simp [F.add]))
  · exact Or.inr (Or.inl rfl)
  · exact Or.inl rfl
  · exact Or.inr (Or.inl rfl)
  · exact Or.inr (Or.inr ⟨p + q, by positivity, rfl⟩)

theorem sumOk_fsum {l : List F} (h : ∀ y ∈ l, SumOk y) :
    SumOk (F.fsum l) := by
  have aux : ∀ (l' : List F) (acc : F), SumOk acc →
      (∀ y ∈ l', SumOk y) → SumOk (l'.foldl F.add acc) := by
    intro l'
    induction l' with
    | nil => intro acc hacc _; exact hacc
    | cons y ys ih =>
      intro acc hacc hy
      exact ih _ (sumOk_add hacc (hy y (by simp)))
        (fun z hz => hy z (by simp [hz]))
  exact aux l (F.fin 0) (Or.inr (Or.inr ⟨0, le_refl 0, rfl⟩)) h

/- ### Claims about the distance function -/

/-- C3: `euclidean(a, b)` is the square root of the sum of `(a_i − b_i)²`
over the positions `i` below `min(|a|, |b|)` only; truncating both inputs
to that common length does not change the result (so tail elements of the
longer sequence are ignored); and two empty sequences yield `0.0`. -/
theorem C3_zip_truncation (a b : List F) :
    euclidean a b = euclidean_spec a b
    ∧ euclidean a b
        = euclidean (a.take (min a.length b.length))
            (b.take (min a.length b.length))
    ∧ (euclidean ([] : List F) []).isZero = true := by
  have key : ∀ (a' b' : List F), euclidean a' b' = euclidean_spec a' b' := by
    intro a' b'
    unfold euclidean euclidean_spec
    rw [zip_map_eq_range_map (fun x y => F.square (F.sub x y))
      (F.fin 0) (F.fin 0) a' b']
  refine ⟨key a b, ?_, rfl⟩
  set m := min a.length b.length with hm
  rw [key a b, key (a.take m) (b.take m)]
  unfold euclidean_spec
  have hlen : min (a.take m).length (b.take m).length = m := by
    simp only [List.length_take]
    omega
  rw [hlen, ← hm]
  refine congrArg (fun l => fsqrt (F.fsum l)) ?_
  refine List.map_congr_left ?_
  intro i hi
  have him : i < m := List.mem_range.mp hi
  rw [getD_take_of_lt _ a m i him, getD_take_of_lt _ b m i him]

/-- C8 fails as stated: a vector containing NaN has NaN distance to
itself, and NaN is not equal to `0.0`. -/
theorem C8_counterexample :
    euclidean [F.nan] [F.nan] = D.nan ∧ D.isZero D.nan = false :=
  ⟨rfl, rfl⟩

/-- C8 (amended): for every vector `A` whose components are all finite
(no NaN or infinity), the distance from `A` to itself is exactly `0.0`. -/
theorem C8_self_distance_zero (A : Vec) (h : A.all F.isFinite = true) :
    (euclidean A A).isZero = true := by
  have hz : ∀ y ∈ (A.zip A).map (fun p => F.square (F.sub p.1 p.2)),
      y = F.fin 0 := by
    intro y hy
    rcases List.mem_map.mp hy with ⟨p, hp, hpy⟩
    have hmem := List.of_mem_zip hp
    have hfin : F.isFinite p.1 = true :=
      List.all_eq_true.mp h p.1 hmem.1
    have hdiag : p.1 = p.2 := by
      rcases List.get_of_mem hp with ⟨i, hi⟩
      have hlt : i.1 < A.length := by
        have := i.isLt
        simpa using this
      have h1 : (A.zip A).get i = (A.get ⟨i.1, hlt⟩, A.get ⟨i.1, hlt⟩) := by
        simp only [List.get_eq_getElem]
        exact List.getElem_zip
      rw [← hi, h1]
    rcases p with ⟨x, y'⟩
    cases x with
    | nan => simp [F.isFinite] at hfin
    | inf s => simp [F.isFinite] at hfin
    | fin q =>
      simp only at hdiag
      subst hdiag
      have : F.sub (F.fin q) (F.fin q) = F.fin 0 := by
        show F.fin (q - q) = F.fin 0
        norm_num
      rw [← hpy]
      simp only [this]
      show F.fin (0 * 0) = F.fin 0
      norm_num
  unfold euclidean
  rw [fsum_all_zero hz]
  rfl

/-- C8's amended theorem holds at the concrete vector `[1, 2]`. -/
theorem C8_witness :
    ([F.fin 1, F.fin 2] : Vec).all F.isFinite = true
    ∧ (euclidean [F.fin 1, F.fin 2] [F.fin 1, F.fin 2]).isZero = true :=
  ⟨by decide, C8_self_distance_zero [F.fin 1, F.fin 2] (by decide)⟩

/-- C9 fails as stated: with a NaN component the returned value is NaN,
which is not a non-negative float. -/
theorem C9_counterexample :
    euclidean [F.nan] [F.fin 0] = D.nan ∧ D.isNonneg D.nan = false :=
  ⟨rfl, rfl⟩

/-- C9 (amended): for every pair of input sequences, the value returned by
the distance function is either NaN (possible only when special values are
involved) or a non-negative value; it is never a negative value. -/
theorem C9_nonneg (a b : List F) :
    euclidean a b = D.nan ∨ (euclidean a b).isNonneg = true := by
  have hsum : SumOk (F.fsum ((a.zip b).map
      (fun p => F.square (F.sub p.1 p.2)))) := by
    refine sumOk_fsum ?_
    intro y hy
    rcases List.mem_map.mp hy with ⟨p, _, hpy⟩
    rw [← hpy]
    exact sumOk_square _
  unfold euclidean
  rcases hsum with h | h | ⟨q, hq, h⟩ <;> rw [h]
  · exact Or.inl rfl
  · exact Or.inr rfl
  · right
    show (fsqrt (F.fin q)).isNonneg = true
    simp only [fsqrt, if_neg (not_lt.mpr hq)]
    simpa [D.isNonneg]

/- ### Claims about the store operations -/

/-- C10: `add` always succeeds — the shape-checked construction
`Array1::from_shape_vec(vector.len(), vector.to_vec())` cannot fail since
the supplied shape is the input's length — the size grows by exactly one,
and the new vector sits at index `size − 1` with the input's contents. -/
theorem C10_add_total (db : VectorDatabase) (v : Vec) :
    from_shape_vec v.length v = some v
    ∧ db.add v = some ⟨db.vectors ++ [v]⟩
    ∧ (db.vectors ++ [v]).length = db.vectors.length + 1
    ∧ (VectorDatabase.mk (db.vectors ++ [v])).get db.vectors.length
        = some v := by
  have hshape : from_shape_vec v.length v = some v := by
    unfold from_shape_vec
    rw [if_pos rfl]
  refine ⟨hshape, ?_, by simp, ?_⟩
  · unfold VectorDatabase.add
    rw [hshape]
    rfl
  · unfold VectorDatabase.get
    have hlt : db.vectors.length < (db.vectors ++ [v]).length := by simp
    rw [dif_pos hlt]
    simp

/-- C7: `add(v)` immediately followed by `remove` at the last index
returns exactly `v` and restores the store to its prior size and
contents. -/
theorem C7_add_remove_roundtrip (db : VectorDatabase) (v : Vec) :
    ∃ db', db.add v = some db'
      ∧ db'.remove (db'.vectors.length - 1) = (some v, db) := by
  refine ⟨⟨db.vectors ++ [v]⟩, ?_, ?_⟩
  · unfold VectorDatabase.add from_shape_vec
    rw [if_pos rfl]
    rfl
  · show VectorDatabase.remove _ ((db.vectors ++ [v]).length - 1) = _
    have hlen : (db.vectors ++ [v]).length - 1 = db.vectors.length := by simp
    rw [hlen]
    unfold VectorDatabase.remove
    have hlt : db.vectors.length < (db.vectors ++ [v]).length := by simp
    rw [dif_pos hlt]
    have hget : (db.vectors ++ [v]).get ⟨db.vectors.length, hlt⟩ = v := by
      simp
    have herase : (db.vectors ++ [v]).eraseIdx db.vectors.length
        = db.vectors := by
      rw [List.eraseIdx_eq_take_drop_succ]
      have h1 : (db.vectors ++ [v]).take db.vectors.length = db.vectors :=
        List.take_left db.vectors [v]
      have h2 : (db.vectors ++ [v]).drop (db.vectors.length + 1) = [] := by
        apply List.drop_eq_nil_of_le
        simp
      rw [h1, h2, List.append_nil]
    rw [hget, herase]

/-- C4: `remove(i)` on a store of size `n` with `i < n` returns the vector
at position `i`, keeps vectors below `i` at their positions, shifts each
vector from a position `j > i` to `j − 1`, and shrinks the size by one;
with `i ≥ n` it returns `None` and leaves the store unchanged. -/
theorem C4_remove_semantics (db : VectorDatabase) (i : Nat) :
    (∀ h : i < db.vectors.length,
      (db.remove i).1 = some (db.vectors.get ⟨i, h⟩)
      ∧ (db.remove i).2.vectors.length = db.vectors.length - 1
      ∧ (∀ j, j < i → (db.remove i).2.get j = db.get j)
      ∧ (∀ j, i < j → j < db.vectors.length →
          (db.remove i).2.get (j - 1) = db.get j))
    ∧ (db.vectors.length ≤ i → db.remove i = (none, db)) := by
  have hget : ∀ (d : VectorDatabase) (j : Nat), d.get j = d.vectors[j]? := by
    intro d j
    unfold VectorDatabase.get
    rw [List.getElem?_eq]
    rfl
  constructor
  · intro h
    have hrem : db.remove i
        = (some (db.vectors.get ⟨i, h⟩), ⟨db.vectors.eraseIdx i⟩) := by
      unfold VectorDatabase.remove
      rw [dif_pos h]
    refine ⟨by rw [hrem], ?_, ?_, ?_⟩
    · rw [hrem]
      simp [List.length_eraseIdx, h]
    · intro j hj
      rw [hrem, hget, hget]
      exact List.getElem?_eraseIdx_of_lt db.vectors i j hj
    · intro j hij hjn
      rw [hrem, hget, hget]
      have h1 : (db.vectors.eraseIdx i)[j - 1]? = db.vectors[(j - 1) + 1]? :=
        List.getElem?_eraseIdx_of_ge db.vectors i (j - 1) (by omega)
      rw [h1]
      congr 1
      omega
  · intro h
    unfold VectorDatabase.remove
    rw [dif_neg (by omega)]

/-- C4's theorem holds at a concrete store: removing index 1 from a
three-element store returns the middle vector, keeps index 0, shifts
index 2 down to 1, shrinks the size to 2, and removing at an
out-of-range index leaves the store unchanged. -/
theorem C4_witness :
    ((VectorDatabase.mk [[F.fin 1], [F.fin 2], [F.fin 3]]).remove 1).1
        = some [F.fin 2]
    ∧ ((VectorDatabase.mk [[F.fin 1], [F.fin 2], [F.fin 3]]).remove
        1).2.vectors.length = 2
    ∧ ((VectorDatabase.mk [[F.fin 1], [F.fin 2], [F.fin 3]]).remove 1).2.get 0
        = (VectorDatabase.mk [[F.fin 1], [F.fin 2], [F.fin 3]]).get 0
    ∧ ((VectorDatabase.mk [[F.fin 1], [F.fin 2], [F.fin 3]]).remove 1).2.get 1
        = (VectorDatabase.mk [[F.fin 1], [F.fin 2], [F.fin 3]]).get 2
    ∧ (VectorDatabase.mk [[F.fin 1], [F.fin 2], [F.fin 3]]).remove 5
        = (none, VectorDatabase.mk [[F.fin 1], [F.fin 2], [F.fin 3]]) := by
  have h1 := (C4_remove_semantics
    (VectorDatabase.mk [[F.fin 1], [F.fin 2], [F.fin 3]]) 1).1 (by decide)
  have h2 := (C4_remove_semantics
    (VectorDatabase.mk [[F.fin 1], [F.fin 2], [F.fin 3]]) 5).2 (by decide)
  exact ⟨h1.1, h1.2.1, h1.2.2.1 0 (by decide),
    h1.2.2.2 2 (by decide) (by decide), h2⟩

/- ### Lemmas about the comparator and the scan of `nearest` -/

theorem partialCmpD_swap (d e : D) :
    partialCmpD e d = (partialCmpD d e).map Ordering.swap := by
  cases d <;> cases e <;> try rfl
  rename_i p q
  show (some (if q < p then Ordering.lt else if p < q then .gt else .eq))
    = Option.map Ordering.swap
        (some (if p < q then Ordering.lt else if q < p then .gt else .eq))
  rcases lt_trichotomy p q with h | h | h
  · simp [h, lt_asymm h, Ordering.swap]
  · subst h
    simp [lt_irrefl, Ordering.swap]
  · simp [h, lt_asymm h, Ordering.swap]

theorem cmpD_swap_ne_lt {d e : D} (h : cmpD d e ≠ .gt) : cmpD e d ≠ .lt := by
  unfold cmpD at *
  rw [partialCmpD_swap d e]
  cases hpc : partialCmpD d e with
  | none => simp [Option.getD]
  | some o =>
    rw [hpc] at h
    cases o <;> simp_all [Ordering.swap, Option.getD]

theorem nearestAux_cons (acc y : Nat × D) (ys : List (Nat × D)) :
    nearestAux acc (y :: ys)
      = nearestAux (if cmpD y.2 acc.2 = .lt then y else acc) ys := rfl

theorem nearestAux_mem : ∀ (ys : List (Nat × D)) (acc : Nat × D),
    nearestAux acc ys = acc ∨ nearestAux acc ys ∈ ys := by
  intro ys
  induction ys with
  | nil => intro acc; exact Or.inl rfl
  | cons y ys ih =>
    intro acc
    rw [nearestAux_cons]
    by_cases hc : cmpD y.2 acc.2 = .lt
    · rw [if_pos hc]
      rcases ih y with h | h
      · exact Or.inr (by rw [h]; exact List.mem_cons_self y ys)
      · exact Or.inr (List.mem_cons_of_mem y h)
    · rw [if_neg hc]
      rcases ih acc with h | h
      · exact Or.inl h
      · exact Or.inr (List.mem_cons_of_mem y h)

theorem nearestAux_stable : ∀ (ys : List (Nat × D)) (acc : Nat × D),
    (∀ y ∈ ys, cmpD y.2 acc.2 ≠ .lt) → nearestAux acc ys = acc := by
  intro ys
  induction ys with
  | nil => intro acc _; rfl
  | cons y ys ih =>
    intro acc h
    rw [nearestAux_cons]
    rw [if_neg (h y (List.mem_cons_self y ys))]
    exact ih acc (fun z hz => h z (List.mem_cons_of_mem y hz))

theorem nearestAux_capture :
    ∀ (xs : List (Nat × D)) (acc : Nat × D) (k : Nat) (hk : k < xs.length),
    (∀ m (hm : m < xs.length),
      cmpD (xs.get ⟨k, hk⟩).2 (xs.get ⟨m, hm⟩).2 ≠ .gt) →
    (∀ m (hm : m < k),
      cmpD (xs.get ⟨k, hk⟩).2 (xs.get ⟨m, Nat.lt_trans hm hk⟩).2 = .lt) →
    cmpD (xs.get ⟨k, hk⟩).2 acc.2 = .lt →
    nearestAux acc xs = xs.get ⟨k, hk⟩ := by
  intro xs
  induction xs with
  | nil => intro acc k hk; exact absurd hk (by simp)
  | cons y ys ih =>
    intro acc k hk h1 h2 hacc
    cases k with
    | zero =>
      rw [nearestAux_cons]
      have hy : (y :: ys).get ⟨0, hk⟩ = y := rfl
      rw [hy] at hacc ⊢
      rw [if_pos hacc]
      refine nearestAux_stable ys y ?_
      intro z hz
      rcases List.mem_iff_get.mp hz with ⟨⟨m, hm⟩, rfl⟩
      refine cmpD_swap_ne_lt ?_
      have := h1 (m + 1) (by simpa using Nat.succ_lt_succ hm)
      simpa using this
    | succ k =>
      have hk' : k < ys.length := by simpa using Nat.lt_of_succ_lt_succ hk
      have hpiv : (y :: ys).get ⟨k + 1, hk⟩ = ys.get ⟨k, hk'⟩ := rfl
      rw [hpiv] at h1 h2 hacc ⊢
      rw [nearestAux_cons]
      have hstep : cmpD (ys.get ⟨k, hk'⟩).2
          (if cmpD y.2 acc.2 = .lt then y else acc).2 = .lt := by
        by_cases hc : cmpD y.2 acc.2 = .lt
        · rw [if_pos hc]
          have := h2 0 (Nat.succ_pos k)
          simpa using this
        · rw [if_neg hc]
          exact hacc
      refine ih _ k hk' ?_ ?_ hstep
      · intro m hm
        have := h1 (m + 1) (by simpa using Nat.succ_lt_succ hm)
        simpa using this
      · intro m hm
        have := h2 (m + 1) (Nat.succ_lt_succ hm)
        simpa using this

theorem nearestAux_first_min (l : List (Nat × D)) (x : Nat × D)
    (xs : List (Nat × D)) (hl : l = x :: xs) (k : Nat) (hk : k < l.length)
    (h1 : ∀ m (hm : m < l.length),
      cmpD (l.get ⟨k, hk⟩).2 (l.get ⟨m, hm⟩).2 ≠ .gt)
    (h2 : ∀ m (hm : m < k),
      cmpD (l.get ⟨k, hk⟩).2 (l.get ⟨m, Nat.lt_trans hm hk⟩).2 = .lt) :
    nearestAux x xs = l.get ⟨k, hk⟩ := by
  subst hl
  cases k with
  | zero =>
    have hx : (x :: xs).get ⟨0, hk⟩ = x := rfl
    rw [hx] at h1 ⊢
    refine nearestAux_stable xs x ?_
    intro z hz
    rcases List.mem_iff_get.mp hz with ⟨⟨m, hm⟩, rfl⟩
    refine cmpD_swap_ne_lt ?_
    have := h1 (m + 1) (by simpa using Nat.succ_lt_succ hm)
    simpa using this
  | succ k =>
    have hk' : k < xs.length := by simpa using Nat.lt_of_succ_lt_succ hk
    have hpiv : (x :: xs).get ⟨k + 1, hk⟩ = xs.get ⟨k, hk'⟩ := rfl
    rw [hpiv] at h1 h2 ⊢
    refine nearestAux_capture xs x k hk' ?_ ?_ ?_
    · intro m hm
      have := h1 (m + 1) (by simpa using Nat.succ_lt_succ hm)
      simpa using this
    · intro m hm
      have := h2 (m + 1) (Nat.succ_lt_succ hm)
      simpa using this
    · have := h2 0 (Nat.succ_pos k)
      simpa using this

/- ### Lemmas about the distance list -/

theorem distList_length (db : VectorDatabase) (query : List F) :
    (distList db query).length = db.vectors.length := by
  simp [distList]

theorem distAt_eq (db : VectorDatabase) (query : List F) (i : Nat)
    (h : i < db.vectors.length) :
    distAt db query i = euclidean db.vectors[i] query := by
  unfold distAt
  congr 1
  rw [List.getD_eq_getElem?_getD, List.getElem?_eq_getElem h]
  rfl

theorem distList_get (db : VectorDatabase) (query : List F) (i : Nat)
    (h : i < db.vectors.length) (hh : i < (distList db query).length) :
    (distList db query).get ⟨i, hh⟩ = (i, distAt db query i) := by
  rw [List.get_eq_getElem]
  show (List.map _ db.vectors.enum)[i] = _
  rw [List.getElem_map, List.getElem_enum]
  rw [distAt_eq db query i h]

theorem mem_distList (db : VectorDatabase) (query : List F) (p : Nat × D)
    (hp : p ∈ distList db query) :
    p.1 < db.vectors.length ∧ p.2 = distAt db query p.1 := by
  rcases List.mem_map.mp hp with ⟨e, he, hep⟩
  have hget : db.vectors[e.1]? = some e.2 := List.mem_enum_iff_getElem?.mp he
  rcases List.getElem?_eq_some.mp hget with ⟨hlt, hval⟩
  constructor
  · rw [← hep]
    exact hlt
  · rw [← hep]
    show euclidean e.2 query = distAt db query e.1
    rw [distAt_eq db query e.1 hlt, hval]

theorem nearest_eq_aux (db : VectorDatabase) (query : List F) (x : Nat × D)
    (xs : List (Nat × D)) (h : db.vectors ≠ [])
    (hdl : distList db query = x :: xs) :
    db.nearest query = some (nearestAux x xs).1 := by
  have hie : db.vectors.isEmpty = false := by
    cases hv : db.vectors with
    | nil => exact absurd hv h
    | cons a l => rfl
  unfold VectorDatabase.nearest
  rw [hie, hdl]
  rfl

theorem nearest_total (db : VectorDatabase) (query : List F)
    (h : db.vectors ≠ []) :
    ∃ i, db.nearest query = some i ∧ i < db.vectors.length := by
  cases hdl : distList db query with
  | nil =>
    exfalso
    have h1 : (distList db query).length = db.vectors.length :=
      distList_length db query
    rw [hdl] at h1
    exact h (List.length_eq_zero.mp h1.symm)
  | cons x xs =>
    refine ⟨(nearestAux x xs).1, nearest_eq_aux db query x xs h hdl, ?_⟩
    have hmem : nearestAux x xs ∈ distList db query := by
      rw [hdl]
      rcases nearestAux_mem xs x with heq | hm
      · rw [heq]; exact List.mem_cons_self x xs
      · exact List.mem_cons_of_mem x hm
    exact (mem_distList db query _ hmem).1

/-- The real value order on non-NaN distance values, embedded into
`WithTop ℚ` by radicand (both +∞ and the never-compared NaN map to `⊤`):
comparing non-NaN distance values under `partialCmpD` agrees with this
linear order. -/
def keyD : D → WithTop ℚ
  | .nan => ⊤
  | .inf => ⊤
  | .sqrtv q => (q : WithTop ℚ)

theorem cmpD_lt_iff_keyD {d e : D} (hd : d ≠ D.nan) (he : e ≠ D.nan) :
    cmpD d e = .lt ↔ keyD d < keyD e := by
  cases d with
  | nan => exact absurd rfl hd
  | inf =>
    cases e with
    | nan => exact absurd rfl he
    | inf => simp [cmpD, partialCmpD, keyD, Option.getD]
    | sqrtv q =>
      simp only [cmpD, partialCmpD, Option.getD, keyD]
      constructor
      · intro h; exact absurd h (by simp)
      · intro h; exact absurd h not_top_lt
  | sqrtv p =>
    cases e with
    | nan => exact absurd rfl he
    | inf =>
      simp only [cmpD, partialCmpD, Option.getD, keyD]
      simp [WithTop.coe_lt_top]
    | sqrtv q =>
      simp only [cmpD, partialCmpD, Option.getD, keyD]
      rcases lt_trichotomy p q with h | h | h
      · simp [h, WithTop.coe_lt_coe]
      · subst h
        simp [lt_irrefl]
      · simp [h, lt_asymm h, WithTop.coe_lt_coe]

theorem D_le_iff_keyD {d e : D} (hd : d ≠ D.nan) (he : e ≠ D.nan) :
    D.le d e ↔ keyD d ≤ keyD e := by
  cases d with
  | nan => exact absurd rfl hd
  | inf =>
    cases e with
    | nan => exact absurd rfl he
    | inf => simp [D.le, partialCmpD, keyD]
    | sqrtv q =>
      simp only [D.le, partialCmpD, keyD]
      constructor
      · intro h
        rcases h with h | h <;> exact absurd h (by simp)
      · intro h
        exact absurd h (by simp [WithTop.coe_lt_top])
  | sqrtv p =>
    cases e with
    | nan => exact absurd rfl he
    | inf =>
      simp only [D.le, partialCmpD, keyD]
      simp [le_top]
    | sqrtv q =>
      simp only [D.le, partialCmpD, keyD]
      rcases lt_trichotomy p q with h | h | h
      · simp [h, le_of_lt h, WithTop.coe_le_coe]
      · subst h
        simp [lt_irrefl]
      · simp [h, lt_asymm h, WithTop.coe_le_coe]

theorem nearestAux_min_keyD : ∀ (ys : List (Nat × D)) (acc : Nat × D),
    acc.2 ≠ D.nan → (∀ y ∈ ys, y.2 ≠ D.nan) →
    keyD (nearestAux acc ys).2 ≤ keyD acc.2
    ∧ ∀ y ∈ ys, keyD (nearestAux acc ys).2 ≤ keyD y.2 := by
  intro ys
  induction ys with
  | nil =>
    intro acc _ _
    exact ⟨le_refl _, by simp⟩
  | cons y ys ih =>
    intro acc hacc hys
    have hy : y.2 ≠ D.nan := hys y (List.mem_cons_self y ys)
    have hys' : ∀ z ∈ ys, z.2 ≠ D.nan :=
      fun z hz => hys z (List.mem_cons_of_mem y hz)
    rw [nearestAux_cons]
    by_cases hc : cmpD y.2 acc.2 = .lt
    · rw [if_pos hc]
      have hlt : keyD y.2 < keyD acc.2 := (cmpD_lt_iff_keyD hy hacc).mp hc
      rcases ih y hy hys' with ⟨h1, h2⟩
      refine ⟨le_trans h1 (le_of_lt hlt), ?_⟩
      intro z hz
      rcases List.mem_cons.mp hz with rfl | hz'
      · exact h1
      · exact h2 z hz'
    · rw [if_neg hc]
      have hge : keyD acc.2 ≤ keyD y.2 := by
        by_contra hcon
        exact hc ((cmpD_lt_iff_keyD hy hacc).mpr (not_le.mp hcon))
      rcases ih acc hacc hys' with ⟨h1, h2⟩
      refine ⟨h1, ?_⟩
      intro z hz
      rcases List.mem_cons.mp hz with rfl | hz'
      · exact le_trans h1 hge
      · exact h2 z hz'

/- ### Claims about `nearest` -/

/-- C1: when several stored vectors are at the same (floating-point equal)
minimum distance from the query, `nearest` returns the lowest index among
them: if `i0` is at minimum distance, every earlier index is strictly
farther, and at least one other index ties with it, the result is `i0`. -/
theorem C1_tie_lowest_index (db : VectorDatabase) (query : List F)
    (i0 : Nat) (hn : i0 < db.vectors.length)
    (hmin : ∀ j, j < db.vectors.length →
      partialCmpD (distAt db query i0) (distAt db query j) = some .lt
      ∨ partialCmpD (distAt db query i0) (distAt db query j) = some .eq)
    (hlow : ∀ k, k < i0 →
      partialCmpD (distAt db query i0) (distAt db query k) = some .lt)
    (htie : ∃ j, j < db.vectors.length ∧ j ≠ i0 ∧
      partialCmpD (distAt db query i0) (distAt db query j) = some .eq) :
    db.nearest query = some i0 := by
  rcases htie with ⟨_, _⟩
  have hne : db.vectors ≠ [] := by
    intro hv
    rw [hv] at hn
    exact absurd hn (by simp)
  cases hdl : distList db query with
  | nil =>
    exfalso
    have h1 : (distList db query).length = db.vectors.length :=
      distList_length db query
    rw [hdl] at h1
    exact hne (List.length_eq_zero.mp h1.symm)
  | cons x xs =>
    rw [nearest_eq_aux db query x xs hne hdl]
    have hk : i0 < (distList db query).length := by
      rw [distList_length]; exact hn
    have hgetk : (distList db query).get ⟨i0, hk⟩ = (i0, distAt db query i0) :=
      distList_get db query i0 hn hk
    have hfm := nearestAux_first_min (distList db query) x xs hdl i0 hk ?_ ?_
    · rw [hfm, hgetk]
    · intro m hm
      have hmn : m < db.vectors.length := by
        rw [← distList_length db query]; exact hm
      rw [hgetk, distList_get db query m hmn hm]
      rcases hmin m hmn with h | h <;> simp [cmpD, h, Option.getD]
    · intro m hm
      have hmn : m < db.vectors.length := by
        rw [← distList_length db query]
        exact Nat.lt_trans hm hk
      rw [hgetk, distList_get db query m hmn (Nat.lt_trans hm hk)]
      simp [cmpD, hlow m hm, Option.getD]

/-- C1's theorem at a concrete tie: vectors `[0]`, `[0]`, `[1]` with query
`[0]` put indices 0 and 1 at the same minimum distance, and `nearest`
returns 0, the lowest of the two. -/
theorem C1_witness :
    (VectorDatabase.mk [[F.fin 0], [F.fin 0], [F.fin 1]]).nearest [F.fin 0]
      = some 0 := by
  have h0 : distAt (VectorDatabase.mk [[F.fin 0], [F.fin 0], [F.fin 1]])
      [F.fin 0] 0 = D.sqrtv 0 := by
    norm_num [distAt, euclidean, F.fsum, F.sub, F.square, F.add, fsqrt]
  have h1 : distAt (VectorDatabase.mk [[F.fin 0], [F.fin 0], [F.fin 1]])
      [F.fin 0] 1 = D.sqrtv 0 := by
    norm_num [distAt, euclidean, F.fsum, F.sub, F.square, F.add, fsqrt]
  have h2 : distAt (VectorDatabase.mk [[F.fin 0], [F.fin 0], [F.fin 1]])
      [F.fin 0] 2 = D.sqrtv 1 := by
    norm_num [distAt, euclidean, F.fsum, F.sub, F.square, F.add, fsqrt]
  refine C1_tie_lowest_index (VectorDatabase.mk
    [[F.fin 0], [F.fin 0], [F.fin 1]]) [F.fin 0] 0 (by decide) ?_
    (fun k hk => absurd hk (Nat.not_lt_zero k)) ⟨1, by decide, by decide, ?_⟩
  · intro j hj
    have hj3 : j < 3 := by simpa using hj
    interval_cases j
    · rw [h0]
      right
      norm_num [partialCmpD]
    · rw [h0, h1]
      right
      norm_num [partialCmpD]
    · rw [h0, h2]
      left
      norm_num [partialCmpD]
  · rw [h0, h1]
    norm_num [partialCmpD]

/-- C2: on a non-empty store in which no computed distance is NaN,
`nearest` returns an index whose distance to the query is less than or
equal (in the `f64` order) to the distance of every stored vector. -/
theorem C2_returns_minimum (db : VectorDatabase) (query : List F)
    (hne : db.vectors ≠ [])
    (hnan : ∀ j, j < db.vectors.length → distAt db query j ≠ D.nan) :
    ∃ i, db.nearest query = some i ∧ i < db.vectors.length
      ∧ ∀ j, j < db.vectors.length →
          D.le (distAt db query i) (distAt db query j) := by
  cases hdl : distList db query with
  | nil =>
    exfalso
    have h1 : (distList db query).length = db.vectors.length :=
      distList_length db query
    rw [hdl] at h1
    exact hne (List.length_eq_zero.mp h1.symm)
  | cons x xs =>
    have hmemnan : ∀ y ∈ distList db query, y.2 ≠ D.nan := by
      intro y hy
      rcases mem_distList db query y hy with ⟨h1, h2⟩
      rw [h2]
      exact hnan y.1 h1
    have hx : x.2 ≠ D.nan := hmemnan x (by rw [hdl]; exact List.mem_cons_self x xs)
    have hxs : ∀ y ∈ xs, y.2 ≠ D.nan := by
      intro y hy
      exact hmemnan y (by rw [hdl]; exact List.mem_cons_of_mem x hy)
    set r := nearestAux x xs with hr
    have hrmem : r ∈ distList db query := by
      rw [hdl]
      rcases nearestAux_mem xs x with heq | hm
      · rw [hr, heq]; exact List.mem_cons_self x xs
      · exact List.mem_cons_of_mem x hm
    rcases mem_distList db query r hrmem with ⟨hrlt, hrval⟩
    rcases nearestAux_min_keyD xs x hx hxs with ⟨hkacc, hkys⟩
    have hkall : ∀ y ∈ distList db query, keyD r.2 ≤ keyD y.2 := by
      intro y hy
      rw [hdl] at hy
      rcases List.mem_cons.mp hy with rfl | hy'
      · exact hkacc
      · exact hkys y hy'
    refine ⟨r.1, nearest_eq_aux db query x xs hne hdl, hrlt, ?_⟩
    intro j hj
    have hjj : j < (distList db query).length := by
      rw [distList_length]; exact hj
    have hjmem : (j, distAt db query j) ∈ distList db query := by
      have := distList_get db query j hj hjj
      rw [← this]
      exact List.get_mem (distList db query) j hjj
    have hkey : keyD r.2 ≤ keyD (distAt db query j) := by
      have := hkall _ hjmem
      simpa using this
    rw [← hrval]
    exact (D_le_iff_keyD (by rw [hrval]; exact hnan r.1 hrlt)
      (hnan j hj)).mpr hkey

/-- C2's theorem at a concrete store: vectors `[0]` and `[3]` with query
`[1]` give distances 1 and 2, `nearest` returns an index below the size
whose distance is less than or equal to both. -/
theorem C2_witness :
    ∃ i, (VectorDatabase.mk [[F.fin 0], [F.fin 3]]).nearest [F.fin 1]
        = some i
      ∧ i < (VectorDatabase.mk [[F.fin 0], [F.fin 3]]).vectors.length
      ∧ ∀ j, j < (VectorDatabase.mk [[F.fin 0], [F.fin 3]]).vectors.length →
          D.le (distAt (VectorDatabase.mk [[F.fin 0], [F.fin 3]]) [F.fin 1] i)
            (distAt (VectorDatabase.mk [[F.fin 0], [F.fin 3]]) [F.fin 1] j) := by
  have h0 : distAt (VectorDatabase.mk [[F.fin 0], [F.fin 3]]) [F.fin 1] 0
      = D.sqrtv 1 := by
    norm_num [distAt, euclidean, F.fsum, F.sub, F.square, F.add, fsqrt]
  have h1 : distAt (VectorDatabase.mk [[F.fin 0], [F.fin 3]]) [F.fin 1] 1
      = D.sqrtv 4 := by
    norm_num [distAt, euclidean, F.fsum, F.sub, F.square, F.add, fsqrt]
  refine C2_returns_minimum (VectorDatabase.mk [[F.fin 0], [F.fin 3]])
    [F.fin 1] (by decide) ?_
  intro j hj
  have hj2 : j < 2 := by simpa using hj
  interval_cases j
  · rw [h0]
    decide
  · rw [h1]
    decide

/-- C5: `nearest` returns the not-found signal exactly on the empty store,
and any returned index is strictly below the store's size. -/
theorem C5_none_iff_empty (db : VectorDatabase) (query : List F) :
    (db.nearest query = none ↔ db.vectors = [])
    ∧ ∀ i, db.nearest query = some i → i < db.vectors.length := by
  by_cases hne : db.vectors = []
  · constructor
    · constructor
      · intro _; exact hne
      · intro _
        unfold VectorDatabase.nearest
        rw [hne]
        rfl
    · intro i hi
      unfold VectorDatabase.nearest at hi
      rw [hne] at hi
      exact absurd hi (by simp)
  · rcases nearest_total db query hne with ⟨i, hi, hilt⟩
    constructor
    · constructor
      · intro h
        rw [hi] at h
        exact absurd h (by simp)
      · intro h; exact absurd h hne
    · intro j hj
      rw [hi] at hj
      have : i = j := by injection hj
      rw [← this]
      exact hilt

/-- C5's theorem at concrete stores: on the empty store `nearest` returns
`none`, and on a one-element store the returned index 0 is below the
size 1. -/
theorem C5_witness :
    ((VectorDatabase.mk []).nearest [] = none
      ↔ (VectorDatabase.mk []).vectors = [])
    ∧ 0 < 1 :=
  ⟨(C5_none_iff_empty (VectorDatabase.mk []) []).1,
    (C5_none_iff_empty (VectorDatabase.mk [[F.fin 0]]) []).2 0 (by decide)⟩

/-- C6: `nearest` is total even in the presence of NaN or infinite
components: the comparator turns every unorderable comparison (NaN
involved) into equality instead of failing, and on any non-empty store —
whatever special values it holds — the scan completes and returns an
index. -/
theorem C6_nan_tolerant_total (db : VectorDatabase) (query : List F)
    (d1 d2 : D) :
    (partialCmpD d1 d2 = none → cmpD d1 d2 = .eq)
    ∧ (db.vectors ≠ [] →
        ∃ i, db.nearest query = some i ∧ i < db.vectors.length) := by
  constructor
  · intro h
    unfold cmpD
    rw [h]
    rfl
  · intro h
    exact nearest_total db query h

/-- C6's theorem at a concrete input full of special values: comparing a
NaN distance is reported as equality, and a store holding a NaN vector and
a +∞ vector still yields an index from `nearest`. -/
theorem C6_witness :
    cmpD D.nan (D.sqrtv 0) = .eq
    ∧ ∃ i, (VectorDatabase.mk [[F.nan], [F.inf true]]).nearest [F.fin 0]
        = some i
      ∧ i < (VectorDatabase.mk [[F.nan], [F.inf true]]).vectors.length :=
  ⟨(C6_nan_tolerant_total (VectorDatabase.mk [[F.nan], [F.inf true]])
      [F.fin 0] D.nan (D.sqrtv 0)).1 rfl,
    (C6_nan_tolerant_total (VectorDatabase.mk [[F.nan], [F.inf true]])
      [F.fin 0] D.nan (D.sqrtv 0)).2 (by decide)⟩

end RustyVectors
